import Mathlib

/-!
# nwn: a trailing-whitespace normalizer

A shallow embedding of `main.go`.  Go byte slices and strings are lists of
bytes.  The pieces of the Go standard library the program calls
(`regexp`, `unicode/utf8`, `bytes`, `image`, `io/ioutil`, `fmt`) are modelled
next to the program's own functions, following their documented behaviour.
-/

namespace Nwn

/-- A Go `byte`. -/
abbrev Byte := UInt8

/-- The bytes of an ASCII string literal of the program. -/
def bytesOf (s : String) : List Byte :=
  s.toList.map (fun c => UInt8.ofNat c.toNat)

/-! ## `regexp`: the fragment used by `whiteNoise`

Patterns are concatenations of byte classes, each matched once or under a
greedy star, with the leftmost-first semantics of Go's `regexp`.  The matcher
works on bytes.  Go's matcher steps through the input rune by rune; the
pattern of the program mentions ASCII bytes only, and `utf8.DecodeRune` never
takes an ASCII byte into a longer rune (`decodeRuneSize_interior` below), so
every match starts at a rune boundary and both readings agree. -/

/-- One element of a pattern: a byte class matched once, or a byte class
under a greedy star. -/
inductive Item where
  | one (cls : List Byte)
  | many (cls : List Byte)

/-- A compiled pattern: a concatenation of items. -/
abbrev Regexp := List Item

/-- Greedy star with backtracking: take one more byte of the class when the
rest of the pattern still matches afterwards, otherwise continue with `k`
here.  The result is the length of the match. -/
def manyThen (cls : List Byte) (k : List Byte → Option Nat) : List Byte → Option Nat
  | [] => k []
  | b :: s =>
    if b ∈ cls then
      match manyThen cls k s with
      | some n => some (n + 1)
      | none => k (b :: s)
    else k (b :: s)

/-- Leftmost-first match of a pattern at the start of the input: the length
of the match, or `none`. -/
def matchHere : Regexp → List Byte → Option Nat
  | [], _ => some 0
  | .one cls :: re, s =>
    match s with
    | [] => none
    | b :: s => if b ∈ cls then (matchHere re s).map (· + 1) else none
  | .many cls :: re, s => manyThen cls (matchHere re) s

/-- The leftmost match in the input: offset of its start and its length. -/
def leftmost (re : Regexp) : List Byte → Option (Nat × Nat)
  | [] => (matchHere re []).map (fun n => (0, n))
  | b :: s =>
    match matchHere re (b :: s) with
    | some n => some (0, n)
    | none => (leftmost re s).map (fun a => (a.1 + 1, a.2))

/-- `(*Regexp).doExecute` restricted to the whole-match pair: the leftmost
match of `re` in `src` starting at or after `pos`, as `(a[0], a[1])`. -/
def doExecute (re : Regexp) (src : List Byte) (pos : Nat) : Option (Nat × Nat) :=
  (leftmost re (src.drop pos)).map (fun a => (pos + a.1, pos + a.1 + a.2))

/-! ## `unicode/utf8`: the width of the rune at the start of a byte slice -/

/-- The table `utf8.first`: information about the first byte of an encoding. -/
def first (b : Byte) : Byte :=
  if b < 0x80 then 0xF0
  else if b < 0xC2 then 0xF1
  else if b < 0xE0 then 0x02
  else if b = 0xE0 then 0x13
  else if b < 0xED then 0x03
  else if b = 0xED then 0x23
  else if b < 0xF0 then 0x03
  else if b = 0xF0 then 0x34
  else if b < 0xF4 then 0x04
  else if b = 0xF4 then 0x44
  else 0xF1

/-- The table `utf8.acceptRanges`: bounds `(lo, hi)` for the second byte. -/
def acceptRanges (i : Byte) : Byte × Byte :=
  if i = 0 then (0x80, 0xBF)
  else if i = 1 then (0xA0, 0xBF)
  else if i = 2 then (0x80, 0x9F)
  else if i = 3 then (0x90, 0xBF)
  else if i = 4 then (0x80, 0x8F)
  else (0, 0)

/-- The `size` result of `utf8.DecodeRune`. -/
def decodeRuneSize (p : List Byte) : Nat :=
  match p with
  | [] => 0
  | p0 :: rest =>
    let x := first p0
    if 0xF0 ≤ x then 1
    else
      let sz := (x &&& 7).toNat
      let accept := acceptRanges (x >>> 4)
      if p.length < sz then 1
      else
        match rest with
        | [] => 1
        | b1 :: rest1 =>
          if b1 < accept.1 ∨ accept.2 < b1 then 1
          else if sz ≤ 2 then 2
          else
            match rest1 with
            | [] => 1
            | b2 :: rest2 =>
              if b2 < 0x80 ∨ 0xBF < b2 then 1
              else if sz ≤ 3 then 3
              else
                match rest2 with
                | [] => 1
                | b3 :: _ => if b3 < 0x80 ∨ 0xBF < b3 then 1 else 4

/-! ## `regexp`: `ReplaceAll` -/

/-- The loop of `(*Regexp).replaceAll`, for a replacement without `$`.
One unit of fuel is one iteration; `none` means the fuel ran out. -/
def replaceAllLoop (re : Regexp) (src repl : List Byte) :
    Nat → Nat → Nat → List Byte → Option (List Byte)
  | 0, _, _, _ => none
  | fuel + 1, lastMatchEnd, searchPos, buf =>
    if searchPos ≤ src.length then
      match doExecute re src searchPos with
      | none => some (buf ++ src.drop lastMatchEnd)
      | some (a0, a1) =>
        -- Copy the unmatched characters before this match.
        let buf1 := buf ++ (src.drop lastMatchEnd).take (a0 - lastMatchEnd)
        -- Insert the replacement, but not for an empty match right after a match.
        let buf2 := if a1 > lastMatchEnd ∨ a0 = 0 then buf1 ++ repl else buf1
        -- Advance past this match; always advance at least one character.
        let width := decodeRuneSize (src.drop searchPos)
        let searchPos1 :=
          if searchPos + width > a1 then searchPos + width
          else if searchPos + 1 > a1 then searchPos + 1
          else a1
        replaceAllLoop re src repl fuel a1 searchPos1 buf2
    else some (buf ++ src.drop lastMatchEnd)

/-- `(*Regexp).ReplaceAll(src, repl)` for a replacement without `$`.  Every
iteration advances `searchPos`, so `len(src) + 2` iterations are enough. -/
def ReplaceAll (re : Regexp) (src repl : List Byte) : Option (List Byte) :=
  replaceAllLoop re src repl (src.length + 2) 0 0 []

/-! ## `bytes` and `path/filepath` -/

/-- `bytes.Equal`. -/
def bytesEqual (a b : List Byte) : Bool := decide (a = b)

/-- `bytes.IndexByte`, as an option. -/
def indexByte : List Byte → Byte → Option Nat
  | [], _ => none
  | b :: s, c => if b = c then some 0 else (indexByte s c).map (· + 1)

/-- The loop of `bytes.genSplit` for a one-byte separator: at most `k` cuts. -/
def splitLoop (sep : Byte) : Nat → List Byte → List (List Byte)
  | 0, s => [s]
  | k + 1, s =>
    match indexByte s sep with
    | none => [s]
    | some m => s.take m :: splitLoop sep k (s.drop (m + 1))

/-- `bytes.SplitN(s, []byte{sep}, n)` for `n ≥ 0`. -/
def SplitN (s : List Byte) (sep : Byte) (n : Nat) : List (List Byte) :=
  if n = 0 then []
  else
    let n1 := if n > s.length + 1 then s.length + 1 else n
    splitLoop sep (n1 - 1) s

/-- `bytes.LastIndexByte`: index of the last occurrence of `c`, or `-1`. -/
def LastIndexByte : List Byte → Byte → Int
  | [], _ => -1
  | b :: s, c =>
    let r := LastIndexByte s c
    if r ≠ -1 then r + 1 else if b = c then 0 else -1

/-- `bytes.Join(bs, []byte{sep})`. -/
def Join : List (List Byte) → Byte → List Byte
  | [], _ => []
  | [a], _ => a
  | a :: b :: rest, sep => a ++ sep :: Join (b :: rest) sep

/-- `filepath.ToSlash` on a platform whose `os.PathSeparator` is `separator`. -/
def ToSlash (separator : Byte) (path : List Byte) : List Byte :=
  if separator = 0x2F then path
  else path.map (fun b => if b = separator then 0x2F else b)

/-! ## Errors, the file system and the outside world -/

/-- A Go `error`, identified with its message. -/
abbrev Error := List Byte

/-- An entry of the file system: a regular file with its content and mode
bits, or a directory. -/
inductive Node where
  | file (data : List Byte) (mode : Nat)
  | dir (mode : Nat)
  deriving DecidableEq

/-- The mode bits of an entry (`FileInfo.Mode()`). -/
def Node.mode : Node → Nat
  | .file _ m => m
  | .dir m => m

/-- Whether an entry is a directory (`FileInfo.IsDir()`). -/
def Node.isDir : Node → Bool
  | .file _ _ => false
  | .dir _ => true

/-- What the program cannot decide itself: the platform and the answers of
the operating system and of the external `diff` command. -/
structure Env where
  /-- `os.PathSeparator` -/
  separator : Byte
  /-- failure of `os.Open` on an existing path -/
  openErr : List Byte → Option Error
  /-- failure of `ioutil.ReadAll` on an opened regular file -/
  readErr : List Byte → Option Error
  /-- failure of `os.Stat` on an existing path -/
  statErr : List Byte → Option Error
  /-- failure of `ioutil.WriteFile` -/
  writeErr : List Byte → Option Error
  /-- failure of `out.Write(data)`: the number of bytes accepted before the error -/
  outErr : List Byte → Option (Nat × Error)
  /-- `ioutil.TempFile("", "nwn")` for the k-th temporary file: its name -/
  tempFile : Nat → Except Error (List Byte)
  /-- failure of writing and closing a temporary file -/
  tempWriteErr : List Byte → List Byte → Option Error
  /-- `exec.Command("diff", "-u", f1, f2).CombinedOutput()`, given both names and contents -/
  runDiff : List Byte → List Byte → List Byte → List Byte → List Byte × Option Error
  /-- the calls `filepath.Walk(path, fn)` makes to `fn`, in order -/
  walk : List Byte → List (List Byte × Option Error)

/-- A piece of standard output.  `processFile` is only called with
`os.Stdout` as `out`; the tag tells `fmt.Printf` from `out.Write`. -/
inductive Chunk where
  | printf (text : List Byte)
  | write (data : List Byte)
  deriving DecidableEq

/-- The state the program reads and changes. -/
structure State where
  /-- the file system -/
  fs : List Byte → Option Node
  /-- the global `exitCode` -/
  exitCode : Int
  /-- what went to standard output, in order -/
  stdout : List Chunk
  /-- what went to standard error -/
  stderr : List Byte
  /-- the successful `ioutil.WriteFile` calls: name, data, perm -/
  writeLog : List (List Byte × List Byte × Nat)

/-- `os.Open(name)`: the entry behind the handle. -/
def osOpen (env : Env) (st : State) (name : List Byte) : Except Error Node :=
  match st.fs name with
  | none => .error (bytesOf "open " ++ name ++ bytesOf ": no such file or directory")
  | some node =>
    match env.openErr name with
    | some e => .error e
    | none => .ok node

/-- `os.Stat(name)`. -/
def osStat (env : Env) (st : State) (name : List Byte) : Except Error Node :=
  match st.fs name with
  | none => .error (bytesOf "stat " ++ name ++ bytesOf ": no such file or directory")
  | some node =>
    match env.statErr name with
    | some e => .error e
    | none => .ok node

/-- `ioutil.ReadAll(f)` on a handle of `node` whose unread bytes are `rest`. -/
def ioutilReadAll (env : Env) (name : List Byte) (node : Node) (rest : List Byte) :
    Except Error (List Byte) :=
  match node with
  | .dir _ => .error (bytesOf "read " ++ name ++ bytesOf ": is a directory")
  | .file _ _ =>
    match env.readErr name with
    | some e => .error e
    | none => .ok rest

/-- `ioutil.WriteFile(name, data, perm)`: an existing file is truncated and
keeps its mode; a missing file is created with mode `perm`. -/
def ioutilWriteFile (env : Env) (st : State) (name data : List Byte) (perm : Nat) :
    State × Option Error :=
  match env.writeErr name with
  | some e => (st, some e)
  | none =>
    match st.fs name with
    | some (.dir _) => (st, some (bytesOf "open " ++ name ++ bytesOf ": is a directory"))
    | some (.file _ mode) =>
      ({ st with fs := fun p => if p = name then some (.file data mode) else st.fs p,
                 writeLog := st.writeLog ++ [(name, data, perm)] }, none)
    | none =>
      ({ st with fs := fun p => if p = name then some (.file data perm) else st.fs p,
                 writeLog := st.writeLog ++ [(name, data, perm)] }, none)

/-- `fmt.Printf` of an already formatted text. -/
def printf (st : State) (text : List Byte) : State :=
  { st with stdout := st.stdout ++ [.printf text] }

/-- `out.Write(data)` for `out = os.Stdout`. -/
def outWrite (env : Env) (st : State) (data : List Byte) : State × Option Error :=
  match env.outErr data with
  | none => ({ st with stdout := st.stdout ++ [.write data] }, none)
  | some (n, e) => ({ st with stdout := st.stdout ++ [.write (data.take n)] }, some e)

/-! ## `image`: format sniffing -/

/-- A registered image format (`image.format`): its magic string and the
verdict of its decoder on a stream. -/
structure Format where
  name : List Byte
  magic : List Byte
  decode : List Byte → Option Error

/-- `image.match`: the magic string matches, `?` standing for any byte. -/
def imageMatch : List Byte → List Byte → Bool
  | [], [] => true
  | m :: ms, b :: bs => (m = b ∨ m = 0x3F) && imageMatch ms bs
  | _, _ => false

/-- `image.sniff`: the first registered format whose magic matches the start
of the stream. -/
def sniff (formats : List Format) (stream : List Byte) : Option Format :=
  formats.find? (fun f =>
    decide (f.magic.length ≤ stream.length) && imageMatch f.magic (stream.take f.magic.length))

/-- The error of `image.Decode` (`none` when an image was decoded). -/
def imageDecode (formats : List Format) (stream : List Byte) : Option Error :=
  match sniff formats stream with
  | none => some (bytesOf "image: unknown format")
  | some f => f.decode stream

/-- The formats in the registry of the program.  Formats are registered by
the `init` functions of the decoder packages (`image/png`, `image/jpeg`,
`image/gif`); `main.go` imports `image` alone, so none is registered. -/
def registeredFormats : List Format := []

/-! ## The program -/

/-- The flags `-w` and `-d`. -/
structure Flags where
  doWrite : Bool
  doDiff : Bool

/-- `whiteNoise = regexp.MustCompile("[ \t]*\n")`. -/
def whiteNoise : Regexp := [.many [0x20, 0x09], .one [0x0A]]

/-- `whiteNoise.ReplaceAll(src, []byte{'\n'})`, the normalizer of `processFile`. -/
def normalize (src : List Byte) : Option (List Byte) :=
  ReplaceAll whiteNoise src [0x0A]

/-- `report`: print the error to standard error and set the exit code to 2. -/
def report (err : Error) (st : State) : State :=
  { st with stderr := st.stderr ++ err ++ bytesOf "\n", exitCode := 2 }

/-- `writeTempFile("", "nwn", data)` for the k-th temporary file. -/
def writeTempFile (env : Env) (k : Nat) (data : List Byte) : Except Error (List Byte) :=
  match env.tempFile k with
  | .error e => .error e
  | .ok name =>
    match env.tempWriteErr name data with
    | some e => .error e
    | none => .ok name

/-- `replaceTempFilename`: put the real file name into the two header lines
of a unified diff, keeping the timestamps. -/
def replaceTempFilename (separator : Byte) (diff filename : List Byte) :
    List Byte × Option Error :=
  let bs := SplitN diff 0x0A 3
  if bs.length < 3 then ([], some (bytesOf "got unexpected diff for " ++ filename))
  else
    -- Preserve timestamps.
    let i0 := LastIndexByte (bs.getD 0 []) 0x09
    let t0 := if i0 ≠ -1 then (bs.getD 0 []).drop i0.toNat else []
    let i1 := LastIndexByte (bs.getD 1 []) 0x09
    let t1 := if i1 ≠ -1 then (bs.getD 1 []).drop i1.toNat else []
    -- Always print filepath with slash separator.
    let f := ToSlash separator filename
    let bs0 := bs.set 0 (bytesOf "--- " ++ (f ++ bytesOf ".orig") ++ t0)
    let bs1 := bs0.set 1 (bytesOf "+++ " ++ f ++ t1)
    (Join bs1 0x0A, none)

/-- `diff`: run the external `diff -u` on two temporary files.  Both files
are removed again before returning, so the file system is left as it was. -/
def diff (env : Env) (b1 b2 filename : List Byte) : List Byte × Option Error :=
  match writeTempFile env 0 b1 with
  | .error e => ([], some e)
  | .ok f1 =>
    match writeTempFile env 1 b2 with
    | .error e => ([], some e)
    | .ok f2 =>
      let r := env.runDiff f1 f2 b1 b2
      if r.1.length > 0 then
        -- diff exits with a non-zero status when the files don't match.
        replaceTempFilename env.separator r.1 filename
      else r

/-- The `if *doWrite` block of `processFile`. -/
def writeBack (env : Env) (flags : Flags) (filename ret : List Byte) (st : State) :
    State × Option Error :=
  if flags.doWrite then
    let perms :=
      match osStat env st filename with
      | .ok fi => Nat.land fi.mode 0o777
      | .error _ => 0
    ioutilWriteFile env st filename ret perms
  else (st, none)

/-- The `if *doDiff` block of `processFile`. -/
def showDiff (env : Env) (flags : Flags) (filename src ret : List Byte) (st : State) :
    State × Option Error :=
  if flags.doDiff then
    match diff env src ret filename with
    | (_, some e) => (st, some (bytesOf "failed to diff: " ++ e))
    | (data, none) =>
      let st1 := printf st (bytesOf "diff -u " ++ ToSlash env.separator (filename ++ bytesOf ".orig")
        ++ bytesOf " " ++ ToSlash env.separator filename ++ bytesOf "\n")
      match outWrite env st1 data with
      | (st2, some e) => (st2, some (bytesOf "failed to doWrite: " ++ e))
      | (st2, none) => (st2, none)
  else (st, none)

/-- The block `if !bytes.Equal(src, ret)` of `processFile`. -/
def onChange (env : Env) (flags : Flags) (filename src ret : List Byte) (st : State) :
    State × Option Error :=
  if !bytesEqual src ret then
    let st1 := { st with exitCode := 1 }
    match writeBack env flags filename ret st1 with
    | (st2, some e) => (st2, some e)
    | (st2, none) => showDiff env flags filename src ret st2
  else (st, none)

/-- `processFile(filename, os.Stdout)`: the new state and the returned error.
The outer `none` is the normalizer running out of fuel.  With an empty
registry `image.Decode` reads nothing from the handle, so `ioutil.ReadAll`
sees the whole content. -/
def processFile (env : Env) (flags : Flags) (filename : List Byte) (st : State) :
    Option (State × Option Error) :=
  match osOpen env st filename with
  | .error e => some (st, some e)
  | .ok node =>
    let stream := match node with
      | .file data _ => data
      | .dir _ => []
    match imageDecode registeredFormats stream with
    | none => some (printf st (bytesOf "skip image file " ++ filename ++ bytesOf "\n"), none)
    | some _ =>
      match ioutilReadAll env filename node stream with
      | .error e => some (st, some e)
      | .ok src =>
        match normalize src with
        | none => none
        | some ret =>
          match onChange env flags filename src ret st with
          | (st1, some e) => some (st1, some e)
          | (st1, none) =>
            if !flags.doWrite && !flags.doDiff then
              match outWrite env st1 ret with
              | (st2, some e) => some (st2, some (bytesOf "failed to doWrite: " ++ e))
              | (st2, none) => some (st2, none)
            else some (st1, none)

/-- `visitFile(path, f, err)`, the callback of the directory walk. -/
def visitFile (env : Env) (flags : Flags) (path : List Byte) (err : Option Error)
    (st : State) : Option State :=
  match err with
  | some e => some (report e st)
  | none =>
    match processFile env flags path st with
    | none => none
    | some (st1, some e) => some (report e st1)
    | some (st1, none) => some st1

/-- The calls of `filepath.Walk(path, visitFile)`, one after the other. -/
def visitAll (env : Env) (flags : Flags) : List (List Byte × Option Error) → State → Option State
  | [], st => some st
  | (p, err) :: rest, st =>
    match visitFile env flags p err st with
    | none => none
    | some st1 => visitAll env flags rest st1

/-- `walkDir(path)`. -/
def walkDir (env : Env) (flags : Flags) (path : List Byte) (st : State) : Option State :=
  visitAll env flags (env.walk path) st

/-- The loop of `main` over the path arguments. -/
def mainLoop (env : Env) (flags : Flags) : List (List Byte) → State → Option State
  | [], st => some st
  | path :: rest, st =>
    let r : Option State :=
      match osStat env st path with
      | .error e => some (report e st)
      | .ok dir =>
        if dir.isDir then walkDir env flags path st
        else
          match processFile env flags path st with
          | none => none
          | some (st1, some e) => some (report e st1)
          | some (st1, none) => some st1
    match r with
    | none => none
    | some st1 => mainLoop env flags rest st1

/-- The state in which `main` starts on the file system `fs`. -/
def initialState (fs : List Byte → Option Node) : State :=
  { fs := fs, exitCode := 0, stdout := [], stderr := [], writeLog := [] }

/-- `main` with parsed flags and path arguments: the final state, whose
`exitCode` is handed to `os.Exit`. -/
def main (env : Env) (flags : Flags) (paths : List (List Byte))
    (fs : List Byte → Option Node) : Option State :=
  mainLoop env flags paths (initialState fs)

/-! ## Notions used to state the properties -/

/-- Some space or tab of the input stands immediately before a line feed. -/
def trailingBlank : List Byte → Bool
  | [] => false
  | b :: s => (decide (b = 0x20 ∨ b = 0x09) && decide (s.head? = some 0x0A)) || trailingBlank s

/-- The pieces of the input between its line feeds: `n` line feeds give
`n + 1` pieces, the last one being the bytes after the last line feed. -/
def splitLF : List Byte → List (List Byte)
  | [] => [[]]
  | b :: s =>
    if b = 0x0A then [] :: splitLF s
    else
      match splitLF s with
      | [] => [[b]]
      | l :: ls => (b :: l) :: ls

/-- A space or a tab. -/
def isBlank (b : Byte) : Bool := b == 0x20 || b == 0x09

/-- A line without its maximal suffix of spaces and tabs. -/
def rstrip (l : List Byte) : List Byte := l.rdropWhile isBlank

/-- Apply `rstrip` to every piece but the last. -/
def stripLines : List (List Byte) → List (List Byte)
  | [] => []
  | [l] => [l]
  | l :: l1 :: ls => rstrip l :: stripLines (l1 :: ls)

/-- The suffix of a line beginning at its last tab; empty when the line has
no tab. -/
def fromLastTab : List Byte → List Byte
  | [] => []
  | b :: s => if 0x09 ∈ s then fromLastTab s else if b = 0x09 then b :: s else []

/-! ## Auxiliary functions of the proofs -/

/-- The input starts with a (possibly empty) run of spaces and tabs followed by
a line feed. -/
def blankToLF : List Byte → Bool
  | [] => false
  | b :: s => if b = 0x0A then true else if b = 0x20 ∨ b = 0x09 then blankToLF s else false

/-- Length of the run of spaces and tabs at the start of the input. -/
def runLen : List Byte → Nat
  | [] => 0
  | b :: s => if b = 0x20 ∨ b = 0x09 then runLen s + 1 else 0

/-- Delete every space or tab that is followed by spaces and tabs up to a
line feed. -/
def strip : List Byte → List Byte
  | [] => []
  | b :: s => if (b = 0x20 ∨ b = 0x09) ∧ blankToLF s = true then strip s else b :: strip s

/-! ## Sample inputs -/

/-- A Unix platform on which no system call fails and `diff` prints nothing. -/
def quietEnv : Env :=
  { separator := 0x2F
    openErr := fun _ => none
    readErr := fun _ => none
    statErr := fun _ => none
    writeErr := fun _ => none
    outErr := fun _ => none
    tempFile := fun k => .ok (bytesOf "/tmp/nwn" ++ [UInt8.ofNat (48 + k)])
    tempWriteErr := fun _ _ => none
    runDiff := fun _ _ _ _ => ([], none)
    walk := fun _ => [] }

/-- A file system holding the single file `dirty.txt` with content "a \nb\t\nc\n". -/
def dirtyFS : List Byte → Option Node :=
  fun p => if p = bytesOf "dirty.txt" then some (.file (bytesOf "a \nb\t\nc\n") 0o644) else none

/-- A valid PNG image: one gray pixel and the text chunk `Comment` = "a \nb". -/
def pngBytes : List Byte :=
  [0x89, 0x50, 0x4E, 0x47, 0x0D, 0x0A, 0x1A, 0x0A, 0x00, 0x00, 0x00, 0x0D, 0x49, 0x48, 0x44, 0x52,
   0x00, 0x00, 0x00, 0x01, 0x00, 0x00, 0x00, 0x01, 0x08, 0x00, 0x00, 0x00, 0x00, 0x3A, 0x7E, 0x9B,
   0x55, 0x00, 0x00, 0x00, 0x0C, 0x74, 0x45, 0x58, 0x74, 0x43, 0x6F, 0x6D, 0x6D, 0x65, 0x6E, 0x74,
   0x00, 0x61, 0x20, 0x0A, 0x62, 0x4C, 0xDE, 0xB4, 0x81, 0x00, 0x00, 0x00, 0x0A, 0x49, 0x44, 0x41,
   0x54, 0x78, 0xDA, 0x63, 0xF8, 0x0F, 0x00, 0x01, 0x01, 0x01, 0x00, 0x1C, 0xB0, 0x8C, 0x99, 0x00,
   0x00, 0x00, 0x00, 0x49, 0x45, 0x4E, 0x44, 0xAE, 0x42, 0x60, 0x82]

/-- The bytes of `pngBytes` without the space of its text chunk. -/
def pngDamaged : List Byte :=
  [0x89, 0x50, 0x4E, 0x47, 0x0D, 0x0A, 0x1A, 0x0A, 0x00, 0x00, 0x00, 0x0D, 0x49, 0x48, 0x44, 0x52,
   0x00, 0x00, 0x00, 0x01, 0x00, 0x00, 0x00, 0x01, 0x08, 0x00, 0x00, 0x00, 0x00, 0x3A, 0x7E, 0x9B,
   0x55, 0x00, 0x00, 0x00, 0x0C, 0x74, 0x45, 0x58, 0x74, 0x43, 0x6F, 0x6D, 0x6D, 0x65, 0x6E, 0x74,
   0x00, 0x61, 0x0A, 0x62, 0x4C, 0xDE, 0xB4, 0x81, 0x00, 0x00, 0x00, 0x0A, 0x49, 0x44, 0x41,
   0x54, 0x78, 0xDA, 0x63, 0xF8, 0x0F, 0x00, 0x01, 0x01, 0x01, 0x00, 0x1C, 0xB0, 0x8C, 0x99, 0x00,
   0x00, 0x00, 0x00, 0x49, 0x45, 0x4E, 0x44, 0xAE, 0x42, 0x60, 0x82]

/-- A file system holding the single file `pixel.png` with content `pngBytes`. -/
def pngFS : List Byte → Option Node :=
  fun p => if p = bytesOf "pixel.png" then some (.file pngBytes 0o644) else none

/-! ## The normalizer: what `ReplaceAll` computes -/

theorem matchHere_whiteNoise (s : List Byte) :
    matchHere whiteNoise s = if blankToLF s = true then some (runLen s + 1) else none := by
  induction s with
  | nil => simp [whiteNoise, matchHere, manyThen, blankToLF]
  | cons b s ih =>
    simp only [whiteNoise, matchHere] at ih ⊢
    by_cases hb : b = 0x20 ∨ b = 0x09
    · have hne : b ≠ 0x0A := by
        rcases hb with h | h <;> subst h <;> decide
      have hmem : b ∈ ([0x20, 0x09] : List Byte) := by simpa using hb
      simp only [manyThen, hmem, if_true, ih, blankToLF, runLen, hb, hne, if_false]
      by_cases hs : blankToLF s = true
      · simp [hs]
      · simp [hs, matchHere, hne]
    · have hmem : ¬ b ∈ ([0x20, 0x09] : List Byte) := by simpa using hb
      simp only [manyThen, hmem, if_false, blankToLF, runLen, hb]
      by_cases hl : b = 0x0A
      · simp [hl, matchHere]
      · simp [hl, matchHere]

theorem hspace_ne_lf {b : Byte} (hb : b = 0x20 ∨ b = 0x09) : b ≠ 0x0A := by
  rcases hb with h | h <;> subst h <;> decide

theorem strip_of_blankToLF (s : List Byte) (h : blankToLF s = true) :
    runLen s + 1 ≤ s.length ∧ strip s = 0x0A :: strip (s.drop (runLen s + 1)) := by
  induction s with
  | nil => simp [blankToLF] at h
  | cons b s ih =>
    by_cases hb : b = 0x20 ∨ b = 0x09
    · have hne := hspace_ne_lf hb
      simp only [blankToLF, hne, if_false, hb, if_true] at h
      obtain ⟨h1, h2⟩ := ih h
      refine ⟨by simp [runLen, hb]; omega, ?_⟩
      simp only [strip, hb, h, and_self, if_true, runLen, List.drop_succ_cons]
      exact h2
    · by_cases hl : b = 0x0A
      · subst hl
        simp [runLen, strip]
      · simp [blankToLF, hl, hb] at h

theorem strip_cons_of_not_blank (b : Byte) (s : List Byte) (h : blankToLF (b :: s) = false) :
    strip (b :: s) = b :: strip s := by
  by_cases hb : b = 0x20 ∨ b = 0x09
  · have hne := hspace_ne_lf hb
    simp only [blankToLF, hne, if_false, hb, if_true] at h
    simp [strip, h]
  · simp [strip, hb]

theorem leftmost_none (s : List Byte) (h : leftmost whiteNoise s = none) : strip s = s := by
  induction s with
  | nil => rfl
  | cons b s ih =>
    simp only [leftmost, matchHere_whiteNoise] at h
    by_cases hbl : blankToLF (b :: s) = true
    · simp [hbl] at h
    · simp only [Bool.not_eq_true] at hbl
      simp only [hbl, Bool.false_eq_true, if_false] at h
      rw [strip_cons_of_not_blank b s hbl, ih (by simpa using h)]

theorem leftmost_some (s : List Byte) (i n : Nat) (h : leftmost whiteNoise s = some (i, n)) :
    1 ≤ n ∧ i + n ≤ s.length ∧ strip s = s.take i ++ 0x0A :: strip (s.drop (i + n)) := by
  induction s generalizing i with
  | nil => simp [leftmost, matchHere_whiteNoise, blankToLF] at h
  | cons b s ih =>
    simp only [leftmost, matchHere_whiteNoise] at h
    by_cases hbl : blankToLF (b :: s) = true
    · simp only [hbl, if_true, Option.some.injEq, Prod.mk.injEq] at h
      obtain ⟨hi, hn⟩ := h
      subst hi; subst hn
      obtain ⟨h1, h2⟩ := strip_of_blankToLF _ hbl
      refine ⟨by omega, by omega, ?_⟩
      simpa using h2
    · simp only [Bool.not_eq_true] at hbl
      simp only [hbl, Bool.false_eq_true, if_false] at h
      cases hl : leftmost whiteNoise s with
      | none => simp [hl] at h
      | some a =>
        obtain ⟨i', n'⟩ := a
        simp only [hl, Option.map_some', Option.some.injEq, Prod.mk.injEq] at h
        obtain ⟨hi, hn⟩ := h
        subst hi; subst hn
        obtain ⟨h1, h2, h3⟩ := ih i' hl
        refine ⟨h1, by simp; omega, ?_⟩
        rw [strip_cons_of_not_blank b s hbl, h3]
        have : i' + 1 + n' = (i' + n') + 1 := by omega
        simp [this]

theorem leftmost_start (s : List Byte) (i n : Nat) (h : leftmost whiteNoise s = some (i, n)) :
    ∃ c, s.get? i = some c ∧ c < 0x80 := by
  induction s generalizing i with
  | nil => simp [leftmost, matchHere_whiteNoise, blankToLF] at h
  | cons b s ih =>
    simp only [leftmost, matchHere_whiteNoise] at h
    by_cases hbl : blankToLF (b :: s) = true
    · simp only [hbl, if_true, Option.some.injEq, Prod.mk.injEq] at h
      obtain ⟨hi, _⟩ := h
      subst hi
      refine ⟨b, rfl, ?_⟩
      by_cases hl : b = 0x0A
      · subst hl; decide
      · by_cases hb : b = 0x20 ∨ b = 0x09
        · rcases hb with h | h <;> subst h <;> decide
        · simp [blankToLF, hl, hb] at hbl
    · simp only [Bool.not_eq_true] at hbl
      simp only [hbl, Bool.false_eq_true, if_false] at h
      cases hl : leftmost whiteNoise s with
      | none => simp [hl] at h
      | some a =>
        obtain ⟨i', n'⟩ := a
        simp only [hl, Option.map_some', Option.some.injEq, Prod.mk.injEq] at h
        obtain ⟨hi, hn⟩ := h
        subst hi; subst hn
        obtain ⟨c, hc, hlt⟩ := ih i' hl
        exact ⟨c, by simpa using hc, hlt⟩

theorem decodeRuneSize_ascii (b : Byte) (s : List Byte) (h : b < 0x80) :
    decodeRuneSize (b :: s) = 1 := by
  have hf : first b = 0xF0 := by unfold first; rw [if_pos h]
  unfold decodeRuneSize
  simp only [hf]
  rfl

theorem acceptRanges_lo (p0 : Byte) (h : ¬ (0xF0 ≤ first p0)) :
    (0x80 : Byte) ≤ (acceptRanges (first p0 >>> 4)).1 := by
  revert h
  unfold first
  by_cases h0 : p0 < 0x80
  · rw [if_pos h0]; decide
  rw [if_neg h0]
  by_cases h1 : p0 < 0xC2
  · rw [if_pos h1]; decide
  rw [if_neg h1]
  by_cases h2 : p0 < 0xE0
  · rw [if_pos h2]; decide
  rw [if_neg h2]
  by_cases h3 : p0 = 0xE0
  · rw [if_pos h3]; decide
  rw [if_neg h3]
  by_cases h4 : p0 < 0xED
  · rw [if_pos h4]; decide
  rw [if_neg h4]
  by_cases h5 : p0 = 0xED
  · rw [if_pos h5]; decide
  rw [if_neg h5]
  by_cases h6 : p0 < 0xF0
  · rw [if_pos h6]; decide
  rw [if_neg h6]
  by_cases h7 : p0 = 0xF0
  · rw [if_pos h7]; decide
  rw [if_neg h7]
  by_cases h8 : p0 < 0xF4
  · rw [if_pos h8]; decide
  rw [if_neg h8]
  by_cases h9 : p0 = 0xF4
  · rw [if_pos h9]; decide
  rw [if_neg h9]
  decide

theorem not_lt_of_accept {lo c : Byte} (hlo : (0x80 : Byte) ≤ lo) (h : ¬ c < lo) : ¬ c < 0x80 := by
  intro hc
  apply h
  rw [UInt8.lt_def, BitVec.lt_def] at hc ⊢
  rw [UInt8.le_def, BitVec.le_def] at hlo
  omega

theorem not_lt_of_range {lo hi c : Byte} (hlo : (0x80 : Byte) ≤ lo)
    (h : ¬ (c < lo ∨ hi < c)) : ¬ c < 0x80 :=
  not_lt_of_accept hlo (fun hc => h (Or.inl hc))

theorem decodeRuneSize_interior (p : List Byte) (j : Nat) (h1 : 1 ≤ j)
    (h2 : j < decodeRuneSize p) : ∃ c, p.get? j = some c ∧ ¬ c < 0x80 := by
  match p with
  | [] => simp [decodeRuneSize] at h2
  | p0 :: rest =>
    unfold decodeRuneSize at h2
    simp only at h2
    by_cases hx : 0xF0 ≤ first p0
    · rw [if_pos hx] at h2; omega
    · rw [if_neg hx] at h2
      have hlo := acceptRanges_lo p0 hx
      generalize acceptRanges (first p0 >>> 4) = acc at hlo h2
      generalize (first p0 &&& 7).toNat = sz at h2
      have h80 : (0x80 : Byte) ≤ 0x80 := by decide
      rcases rest with _ | ⟨b1, _ | ⟨b2, _ | ⟨b3, tail⟩⟩⟩ <;> simp only at h2 <;>
        split_ifs at h2 <;> try omega
      all_goals
        have hj : j = 1 ∨ j = 2 ∨ j = 3 := by omega
        rcases hj with hj | hj | hj <;> subst hj <;>
        first
        | omega
        | exact ⟨b1, rfl, not_lt_of_range hlo (by assumption)⟩
        | exact ⟨b2, rfl, not_lt_of_range h80 (by assumption)⟩
        | exact ⟨b3, rfl, not_lt_of_range h80 (by assumption)⟩

theorem decodeRuneSize_le_match (s : List Byte) (i n : Nat)
    (h : leftmost whiteNoise s = some (i, n)) : decodeRuneSize s ≤ i + n := by
  obtain ⟨c, hc, hlt⟩ := leftmost_start s i n h
  obtain ⟨hn, _, _⟩ := leftmost_some s i n h
  rcases Nat.eq_zero_or_pos i with hi | hi
  · subst hi
    match s, hc with
    | b :: s, hc =>
      simp only [List.get?_cons_zero, Option.some.injEq] at hc
      subst hc
      rw [decodeRuneSize_ascii _ _ hlt]
      omega
  · by_contra hgt
    obtain ⟨c', hc', hnlt⟩ := decodeRuneSize_interior s i hi (by omega)
    rw [hc] at hc'
    simp only [Option.some.injEq] at hc'
    subst hc'
    exact hnlt hlt

theorem replaceAllLoop_whiteNoise (src : List Byte) :
    ∀ (fuel p : Nat) (buf : List Byte), p ≤ src.length → src.length - p < fuel →
      replaceAllLoop whiteNoise src [0x0A] fuel p p buf = some (buf ++ strip (src.drop p)) := by
  intro fuel
  induction fuel with
  | zero => intro p buf _ h; omega
  | succ fuel ih =>
    intro p buf hp hfuel
    unfold replaceAllLoop
    rw [if_pos hp]
    cases hl : leftmost whiteNoise (src.drop p) with
    | none =>
      simp only [doExecute, hl, Option.map_none']
      rw [leftmost_none _ hl]
    | some a =>
      obtain ⟨i, n⟩ := a
      obtain ⟨hn, hlen, hstrip⟩ := leftmost_some _ i n hl
      have hw := decodeRuneSize_le_match _ i n hl
      simp only [List.length_drop] at hlen
      simp only [doExecute, hl, Option.map_some']
      have h1 : p + i + n > p ∨ p + i = 0 := Or.inl (by omega)
      have h2 : ¬ (p + decodeRuneSize (src.drop p) > p + i + n) := by omega
      have h3 : ¬ (p + 1 > p + i + n) := by omega
      simp only [h1, h2, h3, if_true, if_false]
      rw [ih (p + i + n) _ (by omega) (by omega), hstrip, List.drop_drop]
      have e1 : p + i - p = i := by omega
      have e2 : i + n + p = p + i + n := by omega
      simp [e1, e2, Nat.add_assoc]

theorem normalize_eq_strip (src : List Byte) : normalize src = some (strip src) := by
  unfold normalize ReplaceAll
  rw [replaceAllLoop_whiteNoise src _ 0 [] (by omega) (by omega)]
  simp

/-! ## The normalizer: trailing blanks -/

theorem head_strip (s : List Byte) :
    (strip s).head? = some 0x0A ↔ blankToLF s = true := by
  induction s with
  | nil => simp [strip, blankToLF]
  | cons b s ih =>
    by_cases hb : b = 0x20 ∨ b = 0x09
    · have hne := hspace_ne_lf hb
      by_cases hs : blankToLF s = true
      · simp [strip, blankToLF, hb, hs, hne, ih]
      · simp [strip, blankToLF, hb, hs, hne]
    · by_cases hl : b = 0x0A
      · simp [strip, blankToLF, hb, hl]
      · simp [strip, blankToLF, hb, hl]

theorem trailingBlank_strip (s : List Byte) : trailingBlank (strip s) = false := by
  induction s with
  | nil => rfl
  | cons b s ih =>
    by_cases hdel : (b = 0x20 ∨ b = 0x09) ∧ blankToLF s = true
    · simp only [strip, hdel, and_self, if_true]
      exact ih
    · simp only [strip, hdel, if_false, trailingBlank, ih, Bool.or_false]
      by_cases hb : b = 0x20 ∨ b = 0x09
      · have hs : ¬ blankToLF s = true := fun h => hdel ⟨hb, h⟩
        have : ¬ (strip s).head? = some 0x0A := fun h => hs ((head_strip s).1 h)
        simp [this]
      · simp [hb]

theorem trailingBlank_of_blankToLF (b : Byte) (s : List Byte) (hb : b = 0x20 ∨ b = 0x09)
    (h : blankToLF s = true) : trailingBlank (b :: s) = true := by
  induction s generalizing b with
  | nil => simp [blankToLF] at h
  | cons c s ih =>
    by_cases hl : c = 0x0A
    · simp [trailingBlank, hb, hl]
    · by_cases hc : c = 0x20 ∨ c = 0x09
      · simp only [blankToLF, hl, if_false, hc, if_true] at h
        have := ih c hc h
        rw [trailingBlank, this]
        simp
      · simp [blankToLF, hl, hc] at h

theorem strip_of_not_trailingBlank (s : List Byte) (h : trailingBlank s = false) :
    strip s = s := by
  induction s with
  | nil => rfl
  | cons b s ih =>
    have hs : trailingBlank s = false := by
      simp only [trailingBlank, Bool.or_eq_false_iff] at h
      exact h.2
    have hdel : ¬ ((b = 0x20 ∨ b = 0x09) ∧ blankToLF s = true) := by
      rintro ⟨hb, hbl⟩
      rw [trailingBlank_of_blankToLF b s hb hbl] at h
      exact Bool.noConfusion h
    simp only [strip, hdel, if_false, ih hs]

theorem trailingBlank_eq_false_iff (s : List Byte) :
    trailingBlank s = false ↔
      ∀ i, s.get? (i + 1) = some 0x0A → s.get? i ≠ some 0x20 ∧ s.get? i ≠ some 0x09 := by
  induction s with
  | nil => simp [trailingBlank]
  | cons b s ih =>
    simp only [trailingBlank, Bool.or_eq_false_iff, ih]
    constructor
    · rintro ⟨h0, hrest⟩ i hi
      cases i with
      | zero =>
        simp only [List.get?_cons_succ] at hi
        have hh : s.head? = some 0x0A := by
          cases s with
          | nil => simp at hi
          | cons c t => simpa using hi
        simp only [hh, decide_True, Bool.and_true, decide_eq_false_iff_not, not_or] at h0
        simpa using h0
      | succ i => simpa using hrest i (by simpa using hi)
    · intro h
      refine ⟨?_, fun i hi => by simpa using h (i + 1) (by simpa using hi)⟩
      by_cases hh : s.head? = some 0x0A
      · have h0 := h 0 (by
          cases s with
          | nil => simp at hh
          | cons c t => simpa using hh)
        simp only [List.get?_cons_zero, ne_eq, Option.some.injEq] at h0
        simp [hh, h0.1, h0.2]
      · simp [hh]

/-! ## The normalizer: line by line -/

theorem isBlank_iff (b : Byte) : isBlank b = true ↔ (b = 0x20 ∨ b = 0x09) := by
  simp [isBlank]

theorem rstrip_cons (b : Byte) (l : List Byte) :
    rstrip (b :: l) = if isBlank b = true ∧ l.all isBlank = true then [] else b :: rstrip l := by
  unfold rstrip
  induction l using List.reverseRecOn with
  | nil =>
    by_cases hb : isBlank b = true
    · simp [List.rdropWhile, hb]
    · simp [List.rdropWhile, hb]
  | append_singleton l c ih =>
    rw [← List.cons_append, List.rdropWhile_concat, List.rdropWhile_concat]
    by_cases hc : isBlank c = true
    · simp only [hc, if_true, ih, List.all_append, List.all_cons, List.all_nil, Bool.and_true]
    · simp [hc]

theorem blankToLF_mem (s : List Byte) (h : blankToLF s = true) : (0x0A : Byte) ∈ s := by
  induction s with
  | nil => simp [blankToLF] at h
  | cons b s ih =>
    by_cases hl : b = 0x0A
    · simp [hl]
    · by_cases hb : b = 0x20 ∨ b = 0x09
      · simp only [blankToLF, hl, if_false, hb, if_true] at h
        exact List.mem_cons_of_mem _ (ih h)
      · simp [blankToLF, hl, hb] at h

theorem blankToLF_line (l t : List Byte) (hl : (0x0A : Byte) ∉ l) :
    blankToLF (l ++ 0x0A :: t) = l.all isBlank := by
  induction l with
  | nil => simp [blankToLF]
  | cons b l ih =>
    simp only [List.mem_cons, not_or] at hl
    have hne : b ≠ 0x0A := fun h => hl.1 h.symm
    by_cases hb : b = 0x20 ∨ b = 0x09
    · simp [blankToLF, hne, hb, ih hl.2, (isBlank_iff b).2 hb]
    · have : ¬ isBlank b = true := fun h => hb ((isBlank_iff b).1 h)
      simp [blankToLF, hne, hb, this]

theorem strip_noLF (s : List Byte) (h : (0x0A : Byte) ∉ s) : strip s = s := by
  induction s with
  | nil => rfl
  | cons b s ih =>
    simp only [List.mem_cons, not_or] at h
    have : ¬ blankToLF s = true := fun hb => h.2 (blankToLF_mem s hb)
    simp [strip, this, ih h.2]

theorem strip_line (l t : List Byte) (hl : (0x0A : Byte) ∉ l) :
    strip (l ++ 0x0A :: t) = rstrip l ++ 0x0A :: strip t := by
  induction l with
  | nil => simp [strip, rstrip]
  | cons b l ih =>
    simp only [List.mem_cons, not_or] at hl
    rw [rstrip_cons, List.cons_append, strip, blankToLF_line l t hl.2, ih hl.2]
    by_cases hdel : (b = 0x20 ∨ b = 0x09) ∧ l.all isBlank = true
    · have hnil : rstrip l = [] := by
        unfold rstrip
        rw [List.rdropWhile_eq_nil_iff]
        intro x hx
        exact (List.all_eq_true.1 hdel.2) x hx
      have hdel2 : isBlank b = true ∧ l.all isBlank = true := ⟨(isBlank_iff b).2 hdel.1, hdel.2⟩
      rw [if_pos hdel, if_pos hdel2, hnil]
    · have hdel2 : ¬ (isBlank b = true ∧ l.all isBlank = true) :=
        fun h => hdel ⟨(isBlank_iff b).1 h.1, h.2⟩
      rw [if_neg hdel, if_neg hdel2]
      rfl

theorem splitLF_ne_nil (s : List Byte) : splitLF s ≠ [] := by
  cases s with
  | nil => simp [splitLF]
  | cons b s =>
    unfold splitLF
    by_cases hb : b = 0x0A
    · simp [hb]
    · rw [if_neg hb]
      split <;> simp

theorem splitLF_noLF (l : List Byte) (hl : (0x0A : Byte) ∉ l) : splitLF l = [l] := by
  induction l with
  | nil => rfl
  | cons b l ih =>
    simp only [List.mem_cons, not_or] at hl
    have hne : b ≠ 0x0A := fun h => hl.1 h.symm
    simp [splitLF, hne, ih hl.2]

theorem splitLF_line (l t : List Byte) (hl : (0x0A : Byte) ∉ l) :
    splitLF (l ++ 0x0A :: t) = l :: splitLF t := by
  induction l with
  | nil => simp [splitLF]
  | cons b l ih =>
    simp only [List.mem_cons, not_or] at hl
    have hne : b ≠ 0x0A := fun h => hl.1 h.symm
    simp [splitLF, hne, ih hl.2]

theorem lines_induction (P : List Byte → Prop)
    (hlast : ∀ l, (0x0A : Byte) ∉ l → P l)
    (hline : ∀ l t, (0x0A : Byte) ∉ l → P t → P (l ++ 0x0A :: t)) : ∀ s, P s := by
  have key : ∀ n (s : List Byte), s.length ≤ n → P s := by
    intro n
    induction n with
    | zero =>
      intro s hs
      have : s = [] := List.length_eq_zero.1 (by omega)
      subst this
      exact hlast [] (by simp)
    | succ n ih =>
      intro s hs
      by_cases hmem : (0x0A : Byte) ∈ s
      · obtain ⟨l, t, hst, hl⟩ := List.eq_append_cons_of_mem hmem
        subst hst
        refine hline l t hl (ih t ?_)
        simp only [List.length_append, List.length_cons] at hs
        omega
      · exact hlast s hmem
  exact fun s => key s.length s (Nat.le_refl _)

theorem rstrip_noLF (l : List Byte) (hl : (0x0A : Byte) ∉ l) : (0x0A : Byte) ∉ rstrip l :=
  fun h => hl (List.IsPrefix.subset ( List.rdropWhile_prefix isBlank l) h)

theorem stripLines_cons (l : List Byte) (ls : List (List Byte)) (h : ls ≠ []) :
    stripLines (l :: ls) = rstrip l :: stripLines ls := by
  cases ls with
  | nil => exact absurd rfl h
  | cons l1 ls => rfl

theorem splitLF_strip (s : List Byte) : splitLF (strip s) = stripLines (splitLF s) := by
  induction s using lines_induction with
  | hlast l hl => rw [strip_noLF l hl, splitLF_noLF l hl]; rfl
  | hline l t hl ih =>
    rw [strip_line l t hl, splitLF_line _ _ (rstrip_noLF l hl), splitLF_line l t hl,
      stripLines_cons _ _ (splitLF_ne_nil t), ih]

theorem length_splitLF (s : List Byte) : (splitLF s).length = s.count 0x0A + 1 := by
  induction s using lines_induction with
  | hlast l hl => rw [splitLF_noLF l hl, List.count_eq_zero_of_not_mem hl]; rfl
  | hline l t hl ih =>
    rw [splitLF_line l t hl, List.length_cons, ih, List.count_append,
      List.count_eq_zero_of_not_mem hl, List.count_cons_self]
    omega

theorem join_cons (l : List Byte) (ls : List (List Byte)) (h : ls ≠ []) :
    Join (l :: ls) 0x0A = l ++ 0x0A :: Join ls 0x0A := by
  cases ls with
  | nil => exact absurd rfl h
  | cons l1 ls => rfl

/-- Joining the pieces with line feeds gives the input back. -/
theorem join_splitLF (s : List Byte) : Join (splitLF s) 0x0A = s := by
  induction s using lines_induction with
  | hlast l hl => rw [splitLF_noLF l hl]; rfl
  | hline l t hl ih => rw [splitLF_line l t hl, join_cons _ _ (splitLF_ne_nil t), ih]

/-- No piece contains a line feed. -/
theorem splitLF_noLF_mem (s : List Byte) : ∀ l ∈ splitLF s, (0x0A : Byte) ∉ l := by
  induction s using lines_induction with
  | hlast l hl => rw [splitLF_noLF l hl]; simpa using hl
  | hline l t hl ih =>
    rw [splitLF_line l t hl]
    intro x hx
    rcases List.mem_cons.1 hx with h | h
    · exact h ▸ hl
    · exact ih x h

theorem length_stripLines (ls : List (List Byte)) : (stripLines ls).length = ls.length := by
  induction ls with
  | nil => rfl
  | cons l ls ih =>
    cases ls with
    | nil => rfl
    | cons l1 ls => simp only [stripLines, List.length_cons] at ih ⊢; omega

theorem get_stripLines (ls : List (List Byte)) (i : Nat) (h : i + 1 < ls.length) :
    (stripLines ls).get? i = (ls.get? i).map rstrip := by
  induction ls generalizing i with
  | nil => simp at h
  | cons l ls ih =>
    cases ls with
    | nil => simp at h
    | cons l1 ls =>
      cases i with
      | zero => rfl
      | succ i =>
        simp only [stripLines, List.get?_cons_succ]
        exact ih i (by simpa using h)

theorem getLast_stripLines (ls : List (List Byte)) :
    (stripLines ls).getLast? = ls.getLast? := by
  induction ls with
  | nil => rfl
  | cons l ls ih =>
    cases ls with
    | nil => rfl
    | cons l1 ls =>
      rw [stripLines, List.getLast?_cons_cons]
      rw [← ih]
      cases h : stripLines (l1 :: ls) with
      | nil =>
        have := length_stripLines (l1 :: ls)
        rw [h] at this
        simp at this
      | cons x xs => rw [List.getLast?_cons_cons]

/-! ## The file processor -/

theorem imageDecode_registered (stream : List Byte) :
    imageDecode registeredFormats stream = some (bytesOf "image: unknown format") := rfl

theorem processFile_file (env : Env) (flags : Flags) (filename C : List Byte) (mode : Nat)
    (st : State) (hfs : st.fs filename = some (.file C mode))
    (hopen : env.openErr filename = none) (hread : env.readErr filename = none) :
    processFile env flags filename st =
      match onChange env flags filename C (strip C) st with
      | (st1, some e) => some (st1, some e)
      | (st1, none) =>
        if (!flags.doWrite && !flags.doDiff) = true then
          match outWrite env st1 (strip C) with
          | (st2, some e) => some (st2, some (bytesOf "failed to doWrite: " ++ e))
          | (st2, none) => some (st2, none)
        else some (st1, none) := by
  simp only [processFile, osOpen, hfs, hopen, imageDecode_registered, ioutilReadAll, hread,
    normalize_eq_strip]

theorem onChange_same (env : Env) (flags : Flags) (filename C : List Byte) (st : State) :
    onChange env flags filename C C st = (st, none) := by
  simp [onChange, bytesEqual]

theorem outWrite_frame (env : Env) (st : State) (data : List Byte) :
    (outWrite env st data).1.fs = st.fs ∧ (outWrite env st data).1.exitCode = st.exitCode ∧
      (outWrite env st data).1.writeLog = st.writeLog := by
  unfold outWrite
  cases env.outErr data with
  | none => exact ⟨rfl, rfl, rfl⟩
  | some a => exact ⟨rfl, rfl, rfl⟩

/-! ## Properties of the normalizer -/

theorem strip_eq_join (s : List Byte) : strip s = Join (stripLines (splitLF s)) 0x0A := by
  rw [← splitLF_strip, join_splitLF]

theorem count_strip (s : List Byte) : (strip s).count 0x0A = s.count 0x0A := by
  have h1 := length_splitLF (strip s)
  have h2 := length_splitLF s
  rw [splitLF_strip, length_stripLines] at h1
  omega

theorem filter_strip (s : List Byte) :
    (strip s).filter (fun b => !isBlank b) = s.filter (fun b => !isBlank b) := by
  induction s with
  | nil => rfl
  | cons b s ih =>
    by_cases hdel : (b = 0x20 ∨ b = 0x09) ∧ blankToLF s = true
    · have hb : isBlank b = true := (isBlank_iff b).2 hdel.1
      simp only [strip, hdel, and_self, if_true, ih]
      simp [List.filter_cons, hb]
    · simp only [strip, hdel, if_false, List.filter_cons, ih]

/-- C1: for every byte sequence `C` the normalizer returns a result `out`.
It is `C` with every line before a line feed cut back to what stands before
its final run of spaces and tabs, each line feed kept as a single line feed
and the bytes after the last line feed kept: the number of line feeds and the
bytes other than spaces and tabs are those of `C`, and no line feed of `out`
is immediately preceded by a space or a tab. -/
theorem normalize_no_blank_before_LF (C : List Byte) :
    ∃ out, normalize C = some out ∧
      out = Join (stripLines (splitLF C)) 0x0A ∧
      out.count 0x0A = C.count 0x0A ∧
      out.filter (fun b => !isBlank b) = C.filter (fun b => !isBlank b) ∧
      trailingBlank out = false ∧
      ∀ i, out.get? (i + 1) = some 0x0A →
        out.get? i ≠ some 0x20 ∧ out.get? i ≠ some 0x09 :=
  ⟨strip C, normalize_eq_strip C, strip_eq_join C, count_strip C, filter_strip C,
    trailingBlank_strip C, (trailingBlank_eq_false_iff (strip C)).1 (trailingBlank_strip C)⟩

/-- C2: the normalizer keeps the number of line feeds; the i-th line of the
result is the i-th line of the input without its maximal suffix of spaces and
tabs; the bytes after the last line feed are unchanged; and the example
"a \nb\t\nc\n" becomes "a\nb\nc\n". -/
theorem normalize_lines (C : List Byte) :
    ∃ out, normalize C = some out ∧
      out.count 0x0A = C.count 0x0A ∧
      (∀ i, i < C.count 0x0A → (splitLF out).get? i = ((splitLF C).get? i).map rstrip) ∧
      (splitLF out).getLast? = (splitLF C).getLast? ∧
      normalize (bytesOf "a \nb\t\nc\n") = some (bytesOf "a\nb\nc\n") := by
  refine ⟨strip C, normalize_eq_strip C, ?_, ?_, ?_, by decide⟩
  · have h1 := length_splitLF (strip C)
    have h2 := length_splitLF C
    rw [splitLF_strip, length_stripLines] at h1
    omega
  · intro i hi
    rw [splitLF_strip]
    exact get_stripLines _ i (by rw [length_splitLF]; omega)
  · rw [splitLF_strip, getLast_stripLines]

/-- C3: the normalizer is idempotent. -/
theorem normalize_idempotent (C : List Byte) :
    ∃ out, normalize C = some out ∧ normalize out = some out :=
  ⟨strip C, normalize_eq_strip C, by
    rw [normalize_eq_strip, strip_of_not_trailingBlank _ (trailingBlank_strip C)]⟩

/-- C4: a byte sequence in which no space or tab stands immediately before a
line feed is returned unchanged, so `bytes.Equal(src, ret)` holds and
`processFile` treats the file as unchanged: it neither touches the exit code
nor the file system. -/
theorem normalize_clean (C : List Byte) (h : trailingBlank C = false) :
    ∃ ret, normalize C = some ret ∧ ret = C ∧ bytesEqual C ret = true ∧
      ∀ (env : Env) (flags : Flags) (filename : List Byte) (mode : Nat) (st : State),
        st.fs filename = some (.file C mode) → env.openErr filename = none →
        env.readErr filename = none →
        ∃ st1 err, processFile env flags filename st = some (st1, err) ∧
          st1.exitCode = st.exitCode ∧ st1.fs = st.fs ∧ st1.writeLog = st.writeLog := by
  have hs := strip_of_not_trailingBlank C h
  refine ⟨strip C, normalize_eq_strip C, hs, by simp [bytesEqual, hs], ?_⟩
  intro env flags filename mode st hfs hopen hread
  rw [processFile_file env flags filename C mode st hfs hopen hread, hs, onChange_same]
  simp only
  by_cases hf : (!flags.doWrite && !flags.doDiff) = true
  · rw [if_pos hf]
    obtain ⟨h1, h2, h3⟩ := outWrite_frame env st C
    cases hw : outWrite env st C with
    | mk st2 e =>
      rw [hw] at h1 h2 h3
      cases e with
      | none => exact ⟨st2, none, rfl, h2, h1, h3⟩
      | some e => exact ⟨st2, _, rfl, h2, h1, h3⟩
  · rw [if_neg hf]
    exact ⟨st, none, rfl, rfl, rfl, rfl⟩

/-- C4 at the input "a\n\tb\n", which has a tab after a line feed only. -/
theorem normalize_clean_witness :
    trailingBlank (bytesOf "a\n\tb\n") = false ∧
      ∃ ret, normalize (bytesOf "a\n\tb\n") = some ret ∧ ret = bytesOf "a\n\tb\n" :=
  ⟨by decide,
    (normalize_clean (bytesOf "a\n\tb\n") (by decide)).imp fun _ hret => ⟨hret.1, hret.2.1⟩⟩

/-! ## Properties of the file processor -/

/-- C8: with neither `-w` nor `-d`, a readable file with content `C` is never
modified, the exit code becomes 1 exactly when the normalized content differs
from `C`, and when the writer accepts the data exactly the normalized content
is written to it and no error is returned. -/
theorem processFile_print (env : Env) (st : State) (filename C : List Byte) (mode : Nat)
    (hfs : st.fs filename = some (.file C mode))
    (hopen : env.openErr filename = none) (hread : env.readErr filename = none) :
    ∃ ret st1 err, normalize C = some ret ∧
      processFile env ⟨false, false⟩ filename st = some (st1, err) ∧
      st1.fs = st.fs ∧ st1.writeLog = st.writeLog ∧
      st1.exitCode = (if ret ≠ C then 1 else st.exitCode) ∧
      (env.outErr ret = none → err = none ∧ st1.stdout = st.stdout ++ [.write ret]) := by
  refine ⟨strip C, ?_⟩
  rw [processFile_file env ⟨false, false⟩ filename C mode st hfs hopen hread]
  have hon : onChange env ⟨false, false⟩ filename C (strip C) st =
      (if strip C ≠ C then { st with exitCode := 1 } else st, none) := by
    by_cases hc : strip C = C
    · rw [hc, onChange_same]; simp
    · have hc2 : ¬ C = strip C := fun h => hc h.symm
      simp [onChange, bytesEqual, writeBack, showDiff, hc, hc2]
  rw [hon]
  simp only [Bool.not_false, Bool.and_self, if_true]
  generalize hst : (if strip C ≠ C then { st with exitCode := 1 } else st) = st0
  have hfs0 : st0.fs = st.fs := by rw [← hst]; split <;> rfl
  have hlog0 : st0.writeLog = st.writeLog := by rw [← hst]; split <;> rfl
  have hout0 : st0.stdout = st.stdout := by rw [← hst]; split <;> rfl
  have hexit0 : st0.exitCode = (if strip C ≠ C then 1 else st.exitCode) := by
    rw [← hst]; split <;> rfl
  unfold outWrite
  cases ho : env.outErr (strip C) with
  | none =>
    exact ⟨_, none, normalize_eq_strip C, rfl, hfs0, hlog0, hexit0,
      fun _ => ⟨rfl, by simp [hout0]⟩⟩
  | some a =>
    exact ⟨_, _, normalize_eq_strip C, rfl, hfs0, hlog0, hexit0, fun h => by simp at h⟩

/-- C7: with `-w` and without `-d`, nothing goes to standard output, a file
whose normalized content equals its content `C` is not written, and when
`processFile` returns without error the file holds the normalized content
under its old mode bits, other files are untouched, and a changed file was
written once, with the permission bits of its mode when `os.Stat` succeeds.
No error is returned when opening, reading and writing succeed. -/
theorem processFile_write (env : Env) (st : State) (filename C : List Byte) (mode : Nat)
    (hfs : st.fs filename = some (.file C mode)) :
    ∃ ret st1 err, normalize C = some ret ∧
      processFile env ⟨true, false⟩ filename st = some (st1, err) ∧
      st1.stdout = st.stdout ∧
      (ret = C → st1.fs = st.fs ∧ st1.writeLog = st.writeLog) ∧
      (err = none →
        st1.fs filename = some (.file ret mode) ∧
        (∀ p, p ≠ filename → st1.fs p = st.fs p) ∧
        (ret ≠ C → ∃ perm, st1.writeLog = st.writeLog ++ [(filename, ret, perm)] ∧
          (env.statErr filename = none → perm = Nat.land mode 0o777))) ∧
      (env.openErr filename = none → env.readErr filename = none →
        env.writeErr filename = none → err = none) := by
  refine ⟨strip C, ?_⟩
  cases hopen : env.openErr filename with
  | some e =>
    refine ⟨st, some e, normalize_eq_strip C, ?_, rfl, fun _ => ⟨rfl, rfl⟩,
      fun h => by simp at h, fun h => by simp at h⟩
    simp [processFile, osOpen, hfs, hopen]
  | none =>
    cases hread : env.readErr filename with
    | some e =>
      refine ⟨st, some e, normalize_eq_strip C, ?_, rfl, fun _ => ⟨rfl, rfl⟩,
        fun h => by simp at h, fun _ h => by simp at h⟩
      simp [processFile, osOpen, hfs, hopen, imageDecode_registered, ioutilReadAll, hread]
    | none =>
      rw [processFile_file env ⟨true, false⟩ filename C mode st hfs hopen hread]
      by_cases hc : strip C = C
      · rw [hc, onChange_same]
        exact ⟨st, none, normalize_eq_strip C |>.trans (by rw [hc]), rfl, rfl,
          fun _ => ⟨rfl, rfl⟩, fun _ => ⟨hfs, fun _ _ => rfl, fun h => absurd rfl h⟩,
          fun _ _ _ => rfl⟩
      · have hc2 : ¬ C = strip C := fun h => hc h.symm
        cases hwe : env.writeErr filename with
        | some e =>
          refine ⟨{ st with exitCode := 1 }, some e, normalize_eq_strip C, ?_, rfl,
            fun h => absurd h hc, fun h => by simp at h, fun _ _ h => by simp at h⟩
          simp [onChange, bytesEqual, hc2, writeBack, ioutilWriteFile, hwe]
        | none =>
          refine ⟨{ st with
              exitCode := 1,
              fs := fun p => if p = filename then some (.file (strip C) mode) else st.fs p,
              writeLog := st.writeLog ++ [(filename, strip C,
                match osStat env { st with exitCode := 1 } filename with
                | .ok fi => Nat.land fi.mode 0o777
                | .error _ => 0)] },
            none, normalize_eq_strip C, ?_, rfl, fun h => absurd h hc, fun _ => ⟨?_, ?_, ?_⟩,
            fun _ _ _ => rfl⟩
          · simp [onChange, bytesEqual, hc2, writeBack, ioutilWriteFile, hwe, hfs, showDiff]
          · simp
          · intro p hp
            simp [hp]
          · intro _
            refine ⟨_, rfl, fun hstat => ?_⟩
            simp [osStat, hfs, hstat, Node.mode]

/-! ## The diff header -/

theorem indexByte_line (sep : Byte) (l t : List Byte) (hl : sep ∉ l) :
    indexByte (l ++ sep :: t) sep = some l.length := by
  induction l with
  | nil => simp [indexByte]
  | cons b l ih =>
    simp only [List.mem_cons, not_or] at hl
    have hne : b ≠ sep := fun h => hl.1 h.symm
    simp [indexByte, hne, ih hl.2]

theorem indexByte_none (sep : Byte) (s : List Byte) (hs : sep ∉ s) : indexByte s sep = none := by
  induction s with
  | nil => rfl
  | cons b s ih =>
    simp only [List.mem_cons, not_or] at hs
    have hne : b ≠ sep := fun h => hs.1 h.symm
    simp [indexByte, hne, ih hs.2]

theorem splitLoop_line (sep : Byte) (k : Nat) (l t : List Byte) (hl : sep ∉ l) :
    splitLoop sep (k + 1) (l ++ sep :: t) = l :: splitLoop sep k t := by
  simp [splitLoop, indexByte_line sep l t hl]

theorem splitLoop_last (sep : Byte) (k : Nat) (s : List Byte) (hs : sep ∉ s) :
    splitLoop sep k s = [s] := by
  cases k with
  | zero => rfl
  | succ k => simp [splitLoop, indexByte_none sep s hs]

theorem length_splitLoop (k : Nat) (s : List Byte) :
    (splitLoop 0x0A k s).length = min k (s.count 0x0A) + 1 := by
  induction s using lines_induction generalizing k with
  | hlast l hl =>
    rw [splitLoop_last _ k l hl, List.count_eq_zero_of_not_mem hl]
    simp
  | hline l t hl ih =>
    cases k with
    | zero => simp [splitLoop]
    | succ k =>
      rw [splitLoop_line _ k l t hl, List.length_cons, ih k, List.count_append,
        List.count_eq_zero_of_not_mem hl, List.count_cons_self]
      omega

theorem count_le_length (s : List Byte) : s.count 0x0A ≤ s.length := List.count_le_length _ _

theorem length_SplitN (s : List Byte) :
    (SplitN s 0x0A 3).length = min 2 (s.count 0x0A) + 1 := by
  have hc := count_le_length s
  unfold SplitN
  simp only [show ¬ (3 = 0) by decide, if_false]
  by_cases h : 3 > s.length + 1
  · rw [if_pos h, length_splitLoop]
    omega
  · rw [if_neg h, length_splitLoop]

theorem SplitN_header (l0 l1 rest : List Byte) (h0 : (0x0A : Byte) ∉ l0)
    (h1 : (0x0A : Byte) ∉ l1) :
    SplitN (l0 ++ 0x0A :: (l1 ++ 0x0A :: rest)) 0x0A 3 = [l0, l1, rest] := by
  unfold SplitN
  have h : ¬ (3 > (l0 ++ 0x0A :: (l1 ++ 0x0A :: rest)).length + 1) := by
    simp only [List.length_append, List.length_cons]
    omega
  simp only [show ¬ (3 = 0) by decide, if_false, h]
  rw [show 3 - 1 = 1 + 1 by rfl, splitLoop_line _ _ l0 _ h0, splitLoop_line _ _ l1 _ h1]
  rfl

theorem LastIndexByte_ge (s : List Byte) (c : Byte) : -1 ≤ LastIndexByte s c := by
  induction s with
  | nil => simp [LastIndexByte]
  | cons b s ih =>
    simp only [LastIndexByte]
    split_ifs <;> omega

theorem LastIndexByte_eq_neg_one (s : List Byte) (c : Byte) :
    LastIndexByte s c = -1 ↔ c ∉ s := by
  induction s with
  | nil => simp [LastIndexByte]
  | cons b s ih =>
    have hge := LastIndexByte_ge s c
    simp only [LastIndexByte, List.mem_cons, not_or]
    by_cases hr : LastIndexByte s c = -1
    · have hmem := ih.1 hr
      by_cases hb : b = c
      · simp [hr, hb]
      · have : ¬ c = b := fun h => hb h.symm
        simp [hr, hb, hmem, this]
    · have hmem : c ∈ s := by
        by_contra hn
        exact hr (ih.2 hn)
      simp only [ne_eq, hr, not_false_eq_true, if_true, hmem, not_true_eq_false, and_false,
        iff_false]
      omega

theorem drop_LastIndexByte (l : List Byte) :
    (if LastIndexByte l 0x09 ≠ -1 then l.drop (LastIndexByte l 0x09).toNat else []) =
      fromLastTab l := by
  induction l with
  | nil => simp [LastIndexByte, fromLastTab]
  | cons b s ih =>
    have hge := LastIndexByte_ge s 0x09
    by_cases hr : LastIndexByte s 0x09 = -1
    · have hmem := (LastIndexByte_eq_neg_one s 0x09).1 hr
      by_cases hb : b = 0x09
      · simp [LastIndexByte, fromLastTab, hr, hb, hmem]
      · simp [LastIndexByte, fromLastTab, hr, hb, hmem]
    · have hmem : (0x09 : Byte) ∈ s := by
        by_contra hn
        exact hr ((LastIndexByte_eq_neg_one s 0x09).2 hn)
      rw [if_pos hr] at ih
      have h1 : LastIndexByte (b :: s) 0x09 = LastIndexByte s 0x09 + 1 := by
        simp [LastIndexByte, hr]
      have h2 : (LastIndexByte s 0x09 + 1).toNat = (LastIndexByte s 0x09).toNat + 1 := by
        omega
      have h3 : LastIndexByte s 0x09 + 1 ≠ -1 := by omega
      rw [h1, if_pos h3, h2, List.drop_succ_cons, ih]
      simp [fromLastTab, hmem]

/-- The meaning of `fromLastTab`: nothing for a line without a tab, otherwise
the suffix that starts at the tab after which no further tab stands. -/
theorem fromLastTab_eq (l : List Byte) :
    ((0x09 : Byte) ∉ l → fromLastTab l = []) ∧
      ∀ p s, l = p ++ 0x09 :: s → (0x09 : Byte) ∉ s → fromLastTab l = 0x09 :: s := by
  induction l with
  | nil => exact ⟨fun _ => rfl, fun p s h _ => by simp at h⟩
  | cons b t ih =>
    refine ⟨fun h => ?_, fun p s h hs => ?_⟩
    · simp only [List.mem_cons, not_or] at h
      have hb : ¬ b = 0x09 := fun e => h.1 e.symm
      simp [fromLastTab, h.2, hb]
    · cases p with
      | nil =>
        simp only [List.nil_append, List.cons.injEq] at h
        obtain ⟨hb, ht⟩ := h
        subst hb; subst ht
        simp [fromLastTab, hs]
      | cons c p =>
        simp only [List.cons_append, List.cons.injEq] at h
        obtain ⟨_, ht⟩ := h
        have hmem : (0x09 : Byte) ∈ t := by rw [ht]; simp
        rw [fromLastTab, if_pos hmem]
        exact ih.2 p s ht hs

/-- The meaning of `ToSlash`: every separator byte becomes a slash. -/
theorem ToSlash_eq_map (separator : Byte) (path : List Byte) :
    ToSlash separator path = path.map (fun b => if b = separator then 0x2F else b) := by
  unfold ToSlash
  by_cases h : separator = 0x2F
  · rw [if_pos h]
    subst h
    induction path with
    | nil => rfl
    | cons b t ih =>
      rw [List.map_cons, ← ih]
      by_cases hb : b = 0x2F
      · rw [if_pos hb, hb]
      · rw [if_neg hb]
  · rw [if_neg h]

theorem replaceTempFilename_lines (separator : Byte) (L0 L1 rest filename : List Byte)
    (h0 : (0x0A : Byte) ∉ L0) (h1 : (0x0A : Byte) ∉ L1) :
    replaceTempFilename separator (L0 ++ 0x0A :: (L1 ++ 0x0A :: rest)) filename =
      (bytesOf "--- " ++ ToSlash separator filename ++ bytesOf ".orig" ++ fromLastTab L0
        ++ 0x0A :: (bytesOf "+++ " ++ ToSlash separator filename ++ fromLastTab L1
        ++ 0x0A :: rest), none) := by
  unfold replaceTempFilename
  simp only [SplitN_header L0 L1 rest h0 h1]
  simp only [List.length_cons, List.length_nil, show ¬ (0 + 1 + 1 + 1 < 3) by decide, if_false,
    List.getD_cons_zero, List.getD_cons_succ, drop_LastIndexByte, List.set_cons_zero,
    List.set_cons_succ, Join]
  simp

theorem two_lines_of_count (s : List Byte) (h : 2 ≤ s.count 0x0A) :
    ∃ L0 L1 rest, s = L0 ++ 0x0A :: (L1 ++ 0x0A :: rest) ∧
      (0x0A : Byte) ∉ L0 ∧ (0x0A : Byte) ∉ L1 := by
  have hmem : (0x0A : Byte) ∈ s := List.count_pos_iff.1 (by omega)
  obtain ⟨L0, t, hs, h0⟩ := List.eq_append_cons_of_mem hmem
  subst hs
  rw [List.count_append, List.count_eq_zero_of_not_mem h0, List.count_cons_self] at h
  have hmem1 : (0x0A : Byte) ∈ t := List.count_pos_iff.1 (by omega)
  obtain ⟨L1, rest, ht, h1⟩ := List.eq_append_cons_of_mem hmem1
  subst ht
  exact ⟨L0, L1, rest, rfl, h0, h1⟩

/-- C9: on a diff output whose first two lines are `L0` and `L1`, the two
header lines are rewritten to carry the file name (with `.orig` on the first
one) followed by what stood from the last tab of the line on, and the
remainder is kept. -/
theorem replaceTempFilename_header (separator : Byte) (L0 L1 rest filename : List Byte)
    (h0 : (0x0A : Byte) ∉ L0) (h1 : (0x0A : Byte) ∉ L1) :
    replaceTempFilename separator (L0 ++ 0x0A :: (L1 ++ 0x0A :: rest)) filename =
      (bytesOf "--- " ++ ToSlash separator filename ++ bytesOf ".orig" ++ fromLastTab L0
        ++ 0x0A :: (bytesOf "+++ " ++ ToSlash separator filename ++ fromLastTab L1
        ++ 0x0A :: rest), none) :=
  replaceTempFilename_lines separator L0 L1 rest filename h0 h1

/-- C10: the format error, with no data, is returned exactly when the diff
output holds fewer than two line feeds.  Exactly when it holds at least two,
the output is two lines `L0`, `L1` and a remainder, and the result is the
rewritten diff without error: both header lines carry the file name (with
`.orig` on the first) and the part of the old line from its last tab on, and
the remainder follows unchanged. -/
theorem replaceTempFilename_error (separator : Byte) (diff filename : List Byte) :
    (diff.count 0x0A < 2 ↔ replaceTempFilename separator diff filename =
        ([], some (bytesOf "got unexpected diff for " ++ filename))) ∧
      (2 ≤ diff.count 0x0A ↔
        ∃ L0 L1 rest, diff = L0 ++ 0x0A :: (L1 ++ 0x0A :: rest) ∧
          (0x0A : Byte) ∉ L0 ∧ (0x0A : Byte) ∉ L1 ∧
          replaceTempFilename separator diff filename =
            (bytesOf "--- " ++ ToSlash separator filename ++ bytesOf ".orig" ++ fromLastTab L0
              ++ 0x0A :: (bytesOf "+++ " ++ ToSlash separator filename ++ fromLastTab L1
              ++ 0x0A :: rest), none)) := by
  have hlen := length_SplitN diff
  by_cases hc : diff.count 0x0A < 2
  · have hlt : (SplitN diff 0x0A 3).length < 3 := by omega
    have hres : replaceTempFilename separator diff filename =
        ([], some (bytesOf "got unexpected diff for " ++ filename)) := by
      unfold replaceTempFilename
      simp only [hlt, if_true]
    refine ⟨⟨fun _ => hres, fun _ => hc⟩, ⟨fun h => by omega, ?_⟩⟩
    rintro ⟨L0, L1, rest, _, _, _, hd⟩
    rw [hres] at hd
    simp at hd
  · have hge : 2 ≤ diff.count 0x0A := by omega
    obtain ⟨L0, L1, rest, hd, h0, h1⟩ := two_lines_of_count diff hge
    have hres := replaceTempFilename_lines separator L0 L1 rest filename h0 h1
    rw [← hd] at hres
    refine ⟨⟨fun h => absurd h hc, ?_⟩, ⟨fun _ => ⟨L0, L1, rest, hd, h0, h1, hres⟩, fun _ => hge⟩⟩
    intro h
    rw [hres] at h
    simp at h

/-! ## The exit code and image files -/

/-- C5: an error for the first path sets the exit code to 2, and the changed
file `dirty.txt` processed afterwards sets it back to 1: `main` ends with
exit code 1 although an error was reported. -/
theorem main_exit_code_lowered :
    (main quietEnv ⟨false, false⟩ [bytesOf "missing.txt", bytesOf "dirty.txt"] dirtyFS).map
        (fun st => (st.stderr, st.stdout, st.exitCode)) =
      some (bytesOf "stat missing.txt: no such file or directory\n",
        [.write (bytesOf "a\nb\nc\n")], 1) := by
  decide

/-- C6: no image format is registered, so a valid PNG file is processed like
any other file: with `-w` no notice is printed, the file is rewritten without
the space before the line feed of its text chunk, and the exit code is 1. -/
theorem processFile_png_rewritten :
    (processFile quietEnv ⟨true, false⟩ (bytesOf "pixel.png") (initialState pngFS)).map
        (fun r => (r.2, r.1.stdout, r.1.fs (bytesOf "pixel.png"), r.1.exitCode)) =
      some (none, [], some (.file pngDamaged 0o644), 1) := by
  decide

/-! ## The properties at sample inputs -/

/-- C7 at the file `dirty.txt` of `dirtyFS`. -/
theorem processFile_write_witness :
    (initialState dirtyFS).fs (bytesOf "dirty.txt") =
        some (.file (bytesOf "a \nb\t\nc\n") 0o644) ∧
      ∃ ret st1 err, normalize (bytesOf "a \nb\t\nc\n") = some ret ∧
        processFile quietEnv ⟨true, false⟩ (bytesOf "dirty.txt") (initialState dirtyFS) =
          some (st1, err) ∧
        st1.stdout = (initialState dirtyFS).stdout ∧
        (ret = bytesOf "a \nb\t\nc\n" →
          st1.fs = (initialState dirtyFS).fs ∧ st1.writeLog = (initialState dirtyFS).writeLog) ∧
        (err = none →
          st1.fs (bytesOf "dirty.txt") = some (.file ret 0o644) ∧
          (∀ p, p ≠ bytesOf "dirty.txt" → st1.fs p = (initialState dirtyFS).fs p) ∧
          (ret ≠ bytesOf "a \nb\t\nc\n" →
            ∃ perm, st1.writeLog =
                (initialState dirtyFS).writeLog ++ [(bytesOf "dirty.txt", ret, perm)] ∧
              (quietEnv.statErr (bytesOf "dirty.txt") = none → perm = Nat.land 0o644 0o777))) ∧
        (quietEnv.openErr (bytesOf "dirty.txt") = none →
          quietEnv.readErr (bytesOf "dirty.txt") = none →
          quietEnv.writeErr (bytesOf "dirty.txt") = none → err = none) :=
  ⟨by decide, processFile_write quietEnv (initialState dirtyFS) (bytesOf "dirty.txt")
    (bytesOf "a \nb\t\nc\n") 0o644 (by decide)⟩

/-- C8 at the file `dirty.txt` of `dirtyFS`. -/
theorem processFile_print_witness :
    ((initialState dirtyFS).fs (bytesOf "dirty.txt") =
        some (.file (bytesOf "a \nb\t\nc\n") 0o644) ∧
      quietEnv.openErr (bytesOf "dirty.txt") = none ∧
      quietEnv.readErr (bytesOf "dirty.txt") = none) ∧
      ∃ ret st1 err, normalize (bytesOf "a \nb\t\nc\n") = some ret ∧
        processFile quietEnv ⟨false, false⟩ (bytesOf "dirty.txt") (initialState dirtyFS) =
          some (st1, err) ∧
        st1.fs = (initialState dirtyFS).fs ∧
        st1.writeLog = (initialState dirtyFS).writeLog ∧
        st1.exitCode =
          (if ret ≠ bytesOf "a \nb\t\nc\n" then 1 else (initialState dirtyFS).exitCode) ∧
        (quietEnv.outErr ret = none →
          err = none ∧ st1.stdout = (initialState dirtyFS).stdout ++ [.write ret]) :=
  ⟨⟨by decide, rfl, rfl⟩, processFile_print quietEnv (initialState dirtyFS)
    (bytesOf "dirty.txt") (bytesOf "a \nb\t\nc\n") 0o644 (by decide) rfl rfl⟩

/-- C9 at the header of a diff between two temporary files. -/
theorem replaceTempFilename_header_witness :
    ((0x0A : Byte) ∉ bytesOf "--- /tmp/nwn0\t2017-02-03" ∧
      (0x0A : Byte) ∉ bytesOf "+++ /tmp/nwn1\t2017-02-04") ∧
      replaceTempFilename 0x2F
          (bytesOf "--- /tmp/nwn0\t2017-02-03" ++ 0x0A ::
            (bytesOf "+++ /tmp/nwn1\t2017-02-04" ++ 0x0A :: bytesOf "@@ -1 +1 @@\n-a \n+a\n"))
          (bytesOf "dir/x.txt") =
        (bytesOf "--- " ++ ToSlash 0x2F (bytesOf "dir/x.txt") ++ bytesOf ".orig"
          ++ fromLastTab (bytesOf "--- /tmp/nwn0\t2017-02-03")
          ++ 0x0A :: (bytesOf "+++ " ++ ToSlash 0x2F (bytesOf "dir/x.txt")
          ++ fromLastTab (bytesOf "+++ /tmp/nwn1\t2017-02-04")
          ++ 0x0A :: bytesOf "@@ -1 +1 @@\n-a \n+a\n"), none) :=
  ⟨⟨by decide, by decide⟩, replaceTempFilename_header 0x2F _ _ _ _ (by decide) (by decide)⟩

end Nwn
